import Mathlib

/-!
Verification of the encrypted record store of FlaskAzureTableSession
(src/flask_session_azure/storage_account.py) through a shallow embedding.

Modelling conventions:
* Python byte strings are `List Nat` with every element `< 256`
  (predicate `ValidBytes`).
* `base64.b64encode`/`base64.b64decode` (standard alphabet, Python's
  default lenient mode) are embedded as `b64s`/`b64decodeS`; the decoder
  is a direct port of CPython's non-strict binascii.a2b_base64 loop
  (non-alphabet bytes skipped, early pads ignored, a quad-completing pad
  sequence ends decoding successfully discarding excess bits and any
  trailing data, leftover bits raise Incorrect padding).
* The pycryptodome AES-EAX cipher is an external library; it is modelled
  as an ideal AEAD: a keystream XOR for confidentiality and a
  perfectly-binding MAC over (key, nonce, ciphertext) for authenticity,
  with a fresh-nonce source modelled as a counter.  This idealisation is
  exactly the contract the source code relies on.
* Python exceptions are `Except` over the enumeration `PyErr`.
-/

set_option linter.unusedVariables false
set_option linter.unnecessarySeqFocus false

namespace FlaskSessionAzure

/-- Byte strings are lists of naturals; `ValidBytes` says each is a real byte. -/
abbrev Bytes := List Nat

def ValidBytes (bs : Bytes) : Prop := ∀ b ∈ bs, b < 256

instance : DecidablePred ValidBytes := fun bs =>
  List.decidableBAll (fun b => b < 256) bs

/-! ## Base64 (model of Python base64.b64encode / b64decode) -/

/-- The standard base64 alphabet, in value order. -/
def b64alphabet : List Char :=
  "ABCDEFGHIJKLMNOPQRSTUVWXYZabcdefghijklmnopqrstuvwxyz0123456789+/".data

/-- Character of a 6-bit value. -/
def v2c (n : Nat) : Char := b64alphabet.getD n 'A'

/-- 6-bit value of an alphabet character, none for non-alphabet characters. -/
def c2v (c : Char) : Option Nat :=
  let i := b64alphabet.indexOf c
  if i < 64 then some i else none

/-- Characters kept by Python's lenient b64decode: alphabet plus padding. -/
def b64keep (c : Char) : Bool := (c2v c).isSome || c == '='

/-- Encode three-byte chunks, emitting padded final quads, as
pycryptodome-independent model of base64.b64encode. -/
def enc3 : Bytes → List Char
  | [] => []
  | [b1] => [v2c (b1 / 4), v2c (b1 % 4 * 16), '=', '=']
  | [b1, b2] => [v2c (b1 / 4), v2c (b1 % 4 * 16 + b2 / 16), v2c (b2 % 16 * 4), '=']
  | b1 :: b2 :: b3 :: rest =>
      v2c (b1 / 4) :: v2c (b1 % 4 * 16 + b2 / 16) ::
      v2c (b2 % 16 * 4 + b3 / 64) :: v2c (b3 % 64) :: enc3 rest

/-- base64.b64encode of a byte string, returned as a Python str. -/
def b64s (bs : Bytes) : String := ⟨enc3 bs⟩

/-- Decoder core: a direct port of CPython's lenient (non-strict)
binascii.a2b_base64 loop, the decoder behind base64.b64decode on the
interpreters this package supports (the pre-3.11 algorithm; the 3.11
rewrite kept non-strict behaviour identical).  State: `qp` counts data
characters mod 4, `lc`/`lb` hold the pending bits.  A non-alphabet
character is skipped.  A padding character is skipped when fewer than
two data characters of the current quad have been seen, and also at
two data characters when the next kept character is not another pad;
otherwise it ends decoding successfully, discarding pending bits and
everything after.  Leftover bits at the end of input are an
"Incorrect padding" error (`none`). -/
def a2b : Nat → Nat → Nat → List Char → Option Bytes
  | _, _, lb, [] => if lb = 0 then some [] else none
  | qp, lc, lb, ch :: rest =>
      if ch = '=' then
        if qp < 2 ∨ (qp = 2 ∧ rest.find? b64keep ≠ some '=') then
          a2b qp lc lb rest
        else some []
      else
        match c2v ch with
        | none => a2b qp lc lb rest
        | some v =>
            if lb + 6 ≥ 8 then
              match a2b ((qp + 1) % 4) ((lc * 64 + v) % 2 ^ (lb + 6 - 8))
                  (lb + 6 - 8) rest with
              | some bs => some ((lc * 64 + v) / 2 ^ (lb + 6 - 8) % 256 :: bs)
              | none => none
            else a2b ((qp + 1) % 4) (lc * 64 + v) (lb + 6) rest

/-- base64.b64decode of a Python str (lenient default mode); `none`
models binascii.Error.  (Python would raise ValueError before decoding
if the str were not pure ASCII; the claims below only apply the decoder
to ASCII strings.) -/
def b64decodeS (s : String) : Option Bytes := a2b 0 0 0 s.data

/-! ### Base64 round-trip -/

theorem c2v_v2c (x : Nat) (hx : x < 64) : c2v (v2c x) = some x := by
  revert hx
  revert x
  decide

theorem v2c_ne_pad (x : Nat) (hx : x < 64) : v2c x ≠ '=' := by
  revert hx
  revert x
  decide

theorem b64keep_pad : b64keep '=' = true := by decide

theorem a2b_enc3 (bs : Bytes) (h : ValidBytes bs) : a2b 0 0 0 (enc3 bs) = some bs := by
  induction bs using enc3.induct with
  | case1 => simp [enc3, a2b]
  | case2 b1 =>
      have h1 : b1 < 256 := h b1 (by simp)
      simp only [enc3, a2b, c2v_v2c (b1 / 4) (by omega),
        c2v_v2c (b1 % 4 * 16) (by omega),
        v2c_ne_pad (b1 / 4) (by omega), v2c_ne_pad (b1 % 4 * 16) (by omega),
        List.find?, b64keep_pad]
      simp [b64keep_pad, List.find?]
      omega
  | case3 b1 b2 =>
      have h1 : b1 < 256 := h b1 (by simp)
      have h2 : b2 < 256 := h b2 (by simp)
      simp only [enc3, a2b, c2v_v2c (b1 / 4) (by omega),
        c2v_v2c (b1 % 4 * 16 + b2 / 16) (by omega),
        c2v_v2c (b2 % 16 * 4) (by omega),
        v2c_ne_pad (b1 / 4) (by omega),
        v2c_ne_pad (b1 % 4 * 16 + b2 / 16) (by omega),
        v2c_ne_pad (b2 % 16 * 4) (by omega)]
      simp
      omega
  | case4 b1 b2 b3 rest ih =>
      have h1 : b1 < 256 := h b1 (by simp)
      have h2 : b2 < 256 := h b2 (by simp)
      have h3 : b3 < 256 := h b3 (by simp)
      have hrest : ValidBytes rest := fun b hb => h b (by simp [hb])
      simp only [enc3, a2b, c2v_v2c (b1 / 4) (by omega),
        c2v_v2c (b1 % 4 * 16 + b2 / 16) (by omega),
        c2v_v2c (b2 % 16 * 4 + b3 / 64) (by omega),
        c2v_v2c (b3 % 64) (by omega),
        v2c_ne_pad (b1 / 4) (by omega),
        v2c_ne_pad (b1 % 4 * 16 + b2 / 16) (by omega),
        v2c_ne_pad (b2 % 16 * 4 + b3 / 64) (by omega),
        v2c_ne_pad (b3 % 64) (by omega)]
      simp [Nat.mod_one, ih hrest]
      omega

/-- Round-trip: Python's b64decode inverts b64encode on byte strings. -/
theorem b64decodeS_b64s (bs : Bytes) (h : ValidBytes bs) :
    b64decodeS (b64s bs) = some bs := by
  simp [b64decodeS, b64s, a2b_enc3 bs h]

/-- b64encode is injective on byte strings. -/
theorem b64s_inj {bs cs : Bytes} (hb : ValidBytes bs) (hc : ValidBytes cs)
    (h : b64s bs = b64s cs) : bs = cs := by
  have := congrArg b64decodeS h
  rw [b64decodeS_b64s bs hb, b64decodeS_b64s cs hc] at this
  exact Option.some.inj this

/-! ## JSON values (model of the json-serializable dict payloads)

`Json` models the values json.dumps / json.loads handle: null, booleans,
integers, strings, arrays and string-keyed objects.  `dumps` models the
composition json.dumps followed by str.encode, producing a byte string;
`loads` models json.loads applied to bytes and is a partial inverse
(`none` models json.JSONDecodeError). -/

mutual
inductive Json where
  | null : Json
  | bool : Bool → Json
  | num : Int → Json
  | str : String → Json
  | arr : JArr → Json
  | obj : JObj → Json
  deriving DecidableEq
inductive JArr where
  | nil : JArr
  | cons : Json → JArr → JArr
  deriving DecidableEq
inductive JObj where
  | nil : JObj
  | cons : String → Json → JObj → JObj
  deriving DecidableEq
end

/-- Unary byte encoding of a natural number, self-delimiting. -/
def unary (n : Nat) : Bytes := List.replicate n 1 ++ [0]

/-- Parse a unary number, returning it with the remaining bytes. -/
def pNat : Bytes → Option (Nat × Bytes)
  | 0 :: r => some (0, r)
  | 1 :: r =>
      match pNat r with
      | some (n, r1) => some (n + 1, r1)
      | none => none
  | _ => none

/-- Sign-then-magnitude byte encoding of an integer. -/
def encInt : Int → Bytes
  | .ofNat n => 0 :: unary n
  | .negSucc n => 1 :: unary n

/-- Parse an integer. -/
def pInt : Bytes → Option (Int × Bytes)
  | 0 :: r =>
      match pNat r with
      | some (n, r1) => some (Int.ofNat n, r1)
      | none => none
  | 1 :: r =>
      match pNat r with
      | some (n, r1) => some (Int.negSucc n, r1)
      | none => none
  | _ => none

/-- Byte encoding of a character list: each character code in unary. -/
def encChars : List Char → Bytes
  | [] => []
  | c :: cs => unary c.toNat ++ encChars cs

/-- Parse a fixed number of characters. -/
def pChars : Nat → Bytes → Option (List Char × Bytes)
  | 0, r => some ([], r)
  | n + 1, r =>
      match pNat r with
      | some (cv, r1) =>
          match pChars n r1 with
          | some (cs, r2) => some (Char.ofNat cv :: cs, r2)
          | none => none
      | none => none

/-- Length-prefixed byte encoding of a string. -/
def encStr (s : String) : Bytes := unary s.data.length ++ encChars s.data

/-- Parse a string. -/
def pStr (b : Bytes) : Option (String × Bytes) :=
  match pNat b with
  | some (n, r) =>
      match pChars n r with
      | some (cs, r1) => some (⟨cs⟩, r1)
      | none => none
  | none => none

/- Serializer: models json.dumps followed by utf-8 encoding, as an
injective, tag-led byte encoding of the JSON structure. -/
mutual
def dumps : Json → Bytes
  | .null => [0]
  | .bool b => [1, cond b 1 0]
  | .num n => 2 :: encInt n
  | .str s => 3 :: encStr s
  | .arr xs => 4 :: dumpsArr xs
  | .obj kvs => 5 :: dumpsObj kvs
def dumpsArr : JArr → Bytes
  | .nil => [0]
  | .cons v t => 1 :: (dumps v ++ dumpsArr t)
def dumpsObj : JObj → Bytes
  | .nil => [0]
  | .cons k v t => 1 :: (encStr k ++ (dumps v ++ dumpsObj t))
end

/- Node count of a JSON value, a fuel bound for the parsers. -/
mutual
def sizeJ : Json → Nat
  | .null => 1
  | .bool _ => 1
  | .num _ => 1
  | .str _ => 1
  | .arr xs => 1 + sizeA xs
  | .obj kvs => 1 + sizeO kvs
def sizeA : JArr → Nat
  | .nil => 1
  | .cons v t => 1 + sizeJ v + sizeA t
def sizeO : JObj → Nat
  | .nil => 1
  | .cons _ v t => 1 + sizeJ v + sizeO t
end

/- Fueled parser for the serializer above; with enough fuel it inverts
dumps.  A failing parse models json.JSONDecodeError. -/
mutual
def pJson : Nat → Bytes → Option (Json × Bytes)
  | 0, _ => none
  | fuel + 1, b =>
      match b with
      | 0 :: r => some (.null, r)
      | 1 :: 0 :: r => some (.bool false, r)
      | 1 :: 1 :: r => some (.bool true, r)
      | 2 :: r =>
          match pInt r with
          | some (n, r1) => some (.num n, r1)
          | none => none
      | 3 :: r =>
          match pStr r with
          | some (s, r1) => some (.str s, r1)
          | none => none
      | 4 :: r =>
          match pArr fuel r with
          | some (xs, r1) => some (.arr xs, r1)
          | none => none
      | 5 :: r =>
          match pObj fuel r with
          | some (kvs, r1) => some (.obj kvs, r1)
          | none => none
      | _ => none
def pArr : Nat → Bytes → Option (JArr × Bytes)
  | 0, _ => none
  | fuel + 1, b =>
      match b with
      | 0 :: r => some (.nil, r)
      | 1 :: r =>
          match pJson fuel r with
          | some (v, r1) =>
              match pArr fuel r1 with
              | some (t, r2) => some (.cons v t, r2)
              | none => none
          | none => none
      | _ => none
def pObj : Nat → Bytes → Option (JObj × Bytes)
  | 0, _ => none
  | fuel + 1, b =>
      match b with
      | 0 :: r => some (.nil, r)
      | 1 :: r =>
          match pStr r with
          | some (k, r1) =>
              match pJson fuel r1 with
              | some (v, r2) =>
                  match pObj fuel r2 with
                  | some (t, r3) => some (.cons k v t, r3)
                  | none => none
              | none => none
          | none => none
      | _ => none
end

/-- Deserializer: models json.loads on bytes; `none` is
json.JSONDecodeError (or a unicode decoding error). -/
def loads (b : Bytes) : Option Json :=
  match pJson (b.length + 1) b with
  | some (v, []) => some v
  | _ => none

/-! ### Serializer round-trip -/

theorem pNat_unary (n : Nat) (r : Bytes) : pNat (unary n ++ r) = some (n, r) := by
  induction n with
  | zero => simp [unary, pNat]
  | succ n ih =>
      have ih1 : pNat (List.replicate n 1 ++ 0 :: r) = some (n, r) := by
        simpa [unary] using ih
      simp [unary, pNat, List.replicate_succ, ih1]

theorem pInt_encInt (n : Int) (r : Bytes) : pInt (encInt n ++ r) = some (n, r) := by
  cases n with
  | ofNat m => simp [encInt, pInt, pNat_unary]
  | negSucc m => simp [encInt, pInt, pNat_unary]

theorem pChars_encChars (cs : List Char) (r : Bytes) :
    pChars cs.length (encChars cs ++ r) = some (cs, r) := by
  induction cs with
  | nil => simp [encChars, pChars]
  | cons c cs ih =>
      simp [encChars, pChars, pNat_unary, ih, Char.ofNat_toNat]

theorem pStr_encStr (s : String) (r : Bytes) : pStr (encStr s ++ r) = some (s, r) := by
  obtain ⟨cs⟩ := s
  have h := pChars_encChars cs r
  simp only [encStr, pStr, String.data] at h ⊢
  rw [List.append_assoc, pNat_unary]
  simp [h]

theorem sizeJ_pos (v : Json) : 1 ≤ sizeJ v := by
  cases v <;> simp [sizeJ]

theorem sizeA_pos (xs : JArr) : 1 ≤ sizeA xs := by
  cases xs <;> simp [sizeA] <;> omega

theorem sizeO_pos (kvs : JObj) : 1 ≤ sizeO kvs := by
  cases kvs <;> simp [sizeO] <;> omega

theorem parse_dumps (fuel : Nat) :
    (∀ (v : Json) (r : Bytes), sizeJ v ≤ fuel → pJson fuel (dumps v ++ r) = some (v, r)) ∧
    (∀ (xs : JArr) (r : Bytes), sizeA xs ≤ fuel → pArr fuel (dumpsArr xs ++ r) = some (xs, r)) ∧
    (∀ (kvs : JObj) (r : Bytes), sizeO kvs ≤ fuel →
      pObj fuel (dumpsObj kvs ++ r) = some (kvs, r)) := by
  induction fuel with
  | zero =>
      refine ⟨fun v r h => ?_, fun xs r h => ?_, fun kvs r h => ?_⟩
      · have := sizeJ_pos v
        omega
      · have := sizeA_pos xs
        omega
      · have := sizeO_pos kvs
        omega
  | succ fuel ih =>
      obtain ⟨ihJ, ihA, ihO⟩ := ih
      refine ⟨fun v r h => ?_, fun xs r h => ?_, fun kvs r h => ?_⟩
      · cases v with
        | null => simp [dumps, pJson]
        | bool b => cases b <;> simp [dumps, pJson]
        | num n => simp [dumps, pJson, pInt_encInt]
        | str s => simp [dumps, pJson, pStr_encStr]
        | arr xs =>
            have hs : sizeA xs ≤ fuel := by
              simp [sizeJ] at h
              omega
            simp [dumps, pJson, ihA xs r hs]
        | obj kvs =>
            have hs : sizeO kvs ≤ fuel := by
              simp [sizeJ] at h
              omega
            simp [dumps, pJson, ihO kvs r hs]
      · cases xs with
        | nil => simp [dumpsArr, pArr]
        | cons v t =>
            have hp := sizeJ_pos v
            have hq := sizeA_pos t
            have hv : sizeJ v ≤ fuel := by
              simp [sizeA] at h
              omega
            have ht : sizeA t ≤ fuel := by
              simp [sizeA] at h
              omega
            simp [dumpsArr, pArr, ihJ v (dumpsArr t ++ r) hv, ihA t r ht]
      · cases kvs with
        | nil => simp [dumpsObj, pObj]
        | cons k v t =>
            have hp := sizeJ_pos v
            have hq := sizeO_pos t
            have hv : sizeJ v ≤ fuel := by
              simp [sizeO] at h
              omega
            have ht : sizeO t ≤ fuel := by
              simp [sizeO] at h
              omega
            simp [dumpsObj, pObj, pStr_encStr, ihJ v (dumpsObj t ++ r) hv, ihO t r ht]

theorem size_le_dumps (n : Nat) :
    (∀ v : Json, sizeJ v ≤ n → sizeJ v ≤ (dumps v).length) ∧
    (∀ xs : JArr, sizeA xs ≤ n → sizeA xs ≤ (dumpsArr xs).length) ∧
    (∀ kvs : JObj, sizeO kvs ≤ n → sizeO kvs ≤ (dumpsObj kvs).length) := by
  induction n with
  | zero =>
      refine ⟨fun v h => ?_, fun xs h => ?_, fun kvs h => ?_⟩
      · have := sizeJ_pos v
        omega
      · have := sizeA_pos xs
        omega
      · have := sizeO_pos kvs
        omega
  | succ n ih =>
      obtain ⟨ihJ, ihA, ihO⟩ := ih
      refine ⟨fun v h => ?_, fun xs h => ?_, fun kvs h => ?_⟩
      · cases v with
        | null => simp [dumps, sizeJ]
        | bool b => simp [dumps, sizeJ]
        | num m => simp [dumps, sizeJ]
        | str s => simp [dumps, sizeJ]
        | arr xs =>
            have := ihA xs (by simp [sizeJ] at h; omega)
            simp [dumps, sizeJ] at h ⊢
            omega
        | obj kvs =>
            have := ihO kvs (by simp [sizeJ] at h; omega)
            simp [dumps, sizeJ] at h ⊢
            omega
      · cases xs with
        | nil => simp [dumpsArr, sizeA]
        | cons v t =>
            have hp := sizeJ_pos v
            have hq := sizeA_pos t
            have h1 := ihJ v (by simp [sizeA] at h; omega)
            have h2 := ihA t (by simp [sizeA] at h; omega)
            simp [dumpsArr, sizeA] at h ⊢
            omega
      · cases kvs with
        | nil => simp [dumpsObj, sizeO]
        | cons k v t =>
            have hp := sizeJ_pos v
            have hq := sizeO_pos t
            have h1 := ihJ v (by simp [sizeO] at h; omega)
            have h2 := ihO t (by simp [sizeO] at h; omega)
            simp [dumpsObj, sizeO] at h ⊢
            omega

/-- Round-trip: json.loads inverts json.dumps on every JSON value. -/
theorem loads_dumps (v : Json) : loads (dumps v) = some v := by
  have h0 : sizeJ v ≤ (dumps v).length := (size_le_dumps (sizeJ v)).1 v le_rfl
  have h2 := (parse_dumps ((dumps v).length + 1)).1 v [] (by omega)
  have h3 : pJson ((dumps v).length + 1) (dumps v) = some (v, []) := by
    simpa using h2
  simp [loads, h3]

/-- Every byte emitted by the serializer is a real byte. -/
theorem dumps_valid (n : Nat) :
    (∀ v : Json, sizeJ v ≤ n → ValidBytes (dumps v)) ∧
    (∀ xs : JArr, sizeA xs ≤ n → ValidBytes (dumpsArr xs)) ∧
    (∀ kvs : JObj, sizeO kvs ≤ n → ValidBytes (dumpsObj kvs)) := by
  have vb_unary : ∀ m : Nat, ValidBytes (unary m) := by
    intro m b hb
    simp [unary] at hb
    rcases hb with hb | hb
    · omega
    · omega
  have vb_chars : ∀ cs : List Char, ValidBytes (encChars cs) := by
    intro cs
    induction cs with
    | nil => intro b hb; simp [encChars] at hb
    | cons c t iht =>
        intro b hb
        simp [encChars] at hb
        rcases hb with hb | hb
        · exact vb_unary c.toNat b hb
        · exact iht b hb
  have vb_str : ∀ s : String, ValidBytes (encStr s) := by
    intro s b hb
    simp [encStr] at hb
    rcases hb with hb | hb
    · exact vb_unary _ b hb
    · exact vb_chars _ b hb
  have vb_int : ∀ i : Int, ValidBytes (encInt i) := by
    intro i b hb
    cases i with
    | ofNat m =>
        simp [encInt] at hb
        rcases hb with hb | hb
        · omega
        · exact vb_unary m b hb
    | negSucc m =>
        simp [encInt] at hb
        rcases hb with hb | hb
        · omega
        · exact vb_unary m b hb
  induction n with
  | zero =>
      refine ⟨fun v h => ?_, fun xs h => ?_, fun kvs h => ?_⟩
      · have := sizeJ_pos v
        omega
      · have := sizeA_pos xs
        omega
      · have := sizeO_pos kvs
        omega
  | succ n ih =>
      obtain ⟨ihJ, ihA, ihO⟩ := ih
      refine ⟨fun v h => ?_, fun xs h => ?_, fun kvs h => ?_⟩
      · cases v with
        | null => intro b hb; simp [dumps] at hb; omega
        | bool c =>
            intro b hb
            simp [dumps] at hb
            rcases hb with hb | hb
            · omega
            · cases c <;> simp at hb <;> omega
        | num m =>
            intro b hb
            simp [dumps] at hb
            rcases hb with hb | hb
            · omega
            · exact vb_int m b hb
        | str s =>
            intro b hb
            simp [dumps] at hb
            rcases hb with hb | hb
            · omega
            · exact vb_str s b hb
        | arr xs =>
            intro b hb
            simp [dumps] at hb
            rcases hb with hb | hb
            · omega
            · exact ihA xs (by simp [sizeJ] at h; omega) b hb
        | obj kvs =>
            intro b hb
            simp [dumps] at hb
            rcases hb with hb | hb
            · omega
            · exact ihO kvs (by simp [sizeJ] at h; omega) b hb
      · cases xs with
        | nil => intro b hb; simp [dumpsArr] at hb; omega
        | cons v t =>
            have hp := sizeJ_pos v
            have hq := sizeA_pos t
            intro b hb
            simp [dumpsArr] at hb
            rcases hb with hb | hb | hb
            · omega
            · exact ihJ v (by simp [sizeA] at h; omega) b hb
            · exact ihA t (by simp [sizeA] at h; omega) b hb
      · cases kvs with
        | nil => intro b hb; simp [dumpsObj] at hb; omega
        | cons k v t =>
            have hp := sizeJ_pos v
            have hq := sizeO_pos t
            intro b hb
            simp [dumpsObj] at hb
            rcases hb with hb | hb | hb | hb
            · omega
            · exact vb_str k b hb
            · exact ihJ v (by simp [sizeO] at h; omega) b hb
            · exact ihO t (by simp [sizeO] at h; omega) b hb

theorem dumps_validBytes (v : Json) : ValidBytes (dumps v) :=
  (dumps_valid (sizeJ v)).1 v le_rfl

/-! ## Python exceptions

The exceptions that can cross the boundaries of the functions under
study.  The spec's error taxonomy names map onto them as follows:
StorageUnavailableError is `azureMissingResource` escaping an operation
(the code propagates the backend's AzureMissingResourceHttpError
unchanged), MalformedInputError is `binasciiError` (binascii.Error from
base64.b64decode), InvalidKeyError is `valueError` raised by AES.new for
a wrong-length key (and for an empty nonce), CorruptRecordError is
`jsonDecodeError` (json.JSONDecodeError from json.loads). -/

inductive PyErr where
  | azureMissingResource : PyErr
  | binasciiError : PyErr
  | valueError : PyErr
  | jsonDecodeError : PyErr
  deriving DecidableEq

/-! ## Ideal AES-EAX codec (model of the pycryptodome calls in
StorageAccount.encrypt / StorageAccount.decrypt)

The cipher itself lives in the pycryptodome library, outside this
repository; it is embedded as an ideal AEAD with the interface the code
uses: AES.new validates the key length (16, 24 or 32 bytes, else
ValueError) and draws a fresh random nonce (modelled by a counter);
encrypt_and_digest returns ciphertext (a keystream XOR, so the same
length as the plaintext) and a tag that binds key, nonce and ciphertext
(modelled as perfectly binding, which is the AEAD contract the code
relies on); verify raises ValueError on a tag mismatch, which decrypt
turns into None. -/

/-- Accepted AES key lengths, as checked by AES.new. -/
def validKeyLen (key : Bytes) : Bool :=
  key.length = 16 || key.length = 24 || key.length = 32

/-- Keystream byte `i` of the ideal stream cipher under (key, nonce). -/
def ks (key nonce : Bytes) (i : Nat) : Nat :=
  (key.sum + 131 * nonce.sum + 17 * i + key.length) % 256

/-- XOR a byte string against the keystream, starting at position `i`;
applying it twice restores the input. -/
def sx (key nonce : Bytes) (i : Nat) : Bytes → Bytes
  | [] => []
  | b :: bs => (b ^^^ ks key nonce i) :: sx key nonce (i + 1) bs

/-- The ideal authentication tag over (key, nonce, ciphertext): an
injective encoding, modelling the EAX OMAC tag as perfectly binding. -/
def mac (key nonce ct : Bytes) : Bytes :=
  key.length % 256 :: (key ++ (unary nonce.length ++ ct))

/-- The 16-byte nonce drawn for counter value `c` (little-endian
base-256 digits), modelling get_random_bytes inside AES.new. -/
def nonceBytes : Nat → Nat → Bytes
  | 0, _ => []
  | k + 1, c => c % 256 :: nonceBytes k (c / 256)

def nonceOf (c : Nat) : Bytes := nonceBytes 16 c

/-- StorageAccount.encrypt: encrypt serialized bytes under the secret,
drawing the fresh nonce for counter `c`; returns the three base64
strings and the advanced counter.  ValueError models AES.new rejecting
a wrong-length key. -/
def encrypt (data secret : Bytes) (c : Nat) :
    Except PyErr ((String × String × String) × Nat) :=
  if validKeyLen secret then
    let nonce := nonceOf c
    let ct := sx secret nonce 0 data
    .ok ((b64s ct, b64s (mac secret nonce ct), b64s nonce), c + 1)
  else
    .error .valueError

/-- StorageAccount.decrypt: base64-decode nonce, rebuild the cipher,
base64-decode data, decrypt, base64-decode tag, verify; a tag mismatch
yields `none` (the caught ValueError), a base64 failure raises
binascii.Error, a bad key (or empty nonce) raises ValueError. -/
def decrypt (encrypted_data verification_tag nonce : String) (secret : Bytes) :
    Except PyErr (Option Bytes) :=
  match b64decodeS nonce with
  | none => .error .binasciiError
  | some nb =>
      if nb = [] then .error .valueError
      else if validKeyLen secret then
        match b64decodeS encrypted_data with
        | none => .error .binasciiError
        | some ct =>
            match b64decodeS verification_tag with
            | none => .error .binasciiError
            | some tb =>
                if tb = mac secret nb ct then .ok (some (sx secret nb 0 ct))
                else .ok none
      else .error .valueError

/-! ## The table backend (model of azure.cosmosdb.table.TableService)

The table service is an external collaborator reached through the
injected connection; `TableClient` is its interface as the code uses
it, and `azureClient` below is the faithful model of Azure table
semantics: each operation raises AzureMissingResourceHttpError when the
table (or, for point operations, the row) does not exist, and
insert_or_merge_entity upserts (the written entity carries every
column, so merging equals replacing). -/

/-- One stored row, with the exact columns StorageAccount.write sets. -/
structure Entity where
  PartitionKey : String
  RowKey : String
  Data : String
  Tag : String
  Nonce : String
  deriving DecidableEq

/-- Identity of a row: table name, partition key, row key. -/
structure RowId where
  table : String
  partition : String
  row : String
  deriving DecidableEq

/-- State of the remote table store. -/
structure TableState where
  tables : List String
  rows : RowId → Option Entity

/-- The table-service interface as consumed by StorageAccount. -/
structure TableClient (σ : Type) where
  getEntity : σ → String → String → String → Except PyErr Entity
  insertOrMergeEntity : σ → String → Entity → Except PyErr σ
  deleteEntity : σ → String → String → String → Except PyErr σ
  createTable : σ → String → Except PyErr σ

/-- Azure table semantics over `TableState`. -/
def azureClient : TableClient TableState where
  getEntity st t pk rk :=
    if t ∈ st.tables then
      match st.rows ⟨t, pk, rk⟩ with
      | some e => .ok e
      | none => .error .azureMissingResource
    else .error .azureMissingResource
  insertOrMergeEntity st t e :=
    if t ∈ st.tables then
      .ok { st with rows := fun r =>
              if r = ⟨t, e.PartitionKey, e.RowKey⟩ then some e else st.rows r }
    else .error .azureMissingResource
  deleteEntity st t pk rk :=
    if t ∈ st.tables then
      match st.rows ⟨t, pk, rk⟩ with
      | some _ => .ok { st with rows := fun r =>
                          if r = ⟨t, pk, rk⟩ then none else st.rows r }
      | none => .error .azureMissingResource
    else .error .azureMissingResource
  createTable st t :=
    .ok (if t ∈ st.tables then st else { st with tables := t :: st.tables })

/-! ## StorageAccount -/

/-- Configuration fixed at construction of a StorageAccount. -/
structure StorageAccount where
  table_name : String
  partition_key : String
  create_table_if_not_exists : Bool

namespace StorageAccount

/-- The entity StorageAccount.write builds for (key, data) under the
secret, with nonce counter `c`. -/
def sessionEntity (sa : StorageAccount) (key : String) (data : Json)
    (secret : Bytes) (c : Nat) : Entity :=
  { PartitionKey := sa.partition_key
    RowKey := key
    Data := b64s (sx secret (nonceOf c) 0 (dumps data))
    Tag := b64s (mac secret (nonceOf c) (sx secret (nonceOf c) 0 (dumps data)))
    Nonce := b64s (nonceOf c) }

/-- StorageAccount.write: serialize, encrypt, upsert; on
AzureMissingResourceHttpError re-raise if create_table_if_not_exists is
false, else create the table and retry the upsert once, uncaught. -/
def write {σ : Type} (sa : StorageAccount) (tc : TableClient σ) (st : σ)
    (c : Nat) (key : String) (data : Json) (secret : Bytes) :
    Except PyErr (σ × Nat) :=
  match encrypt (dumps data) secret c with
  | .error e => .error e
  | .ok ((encoded_data, tag, nonce), c1) =>
      let entity : Entity :=
        { PartitionKey := sa.partition_key
          RowKey := key
          Data := encoded_data
          Tag := tag
          Nonce := nonce }
      match tc.insertOrMergeEntity st sa.table_name entity with
      | .ok st1 => .ok (st1, c1)
      | .error .azureMissingResource =>
          if sa.create_table_if_not_exists then
            match tc.createTable st sa.table_name with
            | .error e => .error e
            | .ok st1 =>
                match tc.insertOrMergeEntity st1 sa.table_name entity with
                | .ok st2 => .ok (st2, c1)
                | .error e => .error e
          else .error .azureMissingResource
      | .error e => .error e

/-- StorageAccount.read: fetch, decrypt, json.loads; a missing table or
row (AzureMissingResourceHttpError) and a failed verification both
yield None. -/
def read {σ : Type} (sa : StorageAccount) (tc : TableClient σ) (st : σ)
    (key : String) (secret : Bytes) : Except PyErr (Option Json) :=
  match tc.getEntity st sa.table_name sa.partition_key key with
  | .error .azureMissingResource => .ok none
  | .error e => .error e
  | .ok data =>
      match decrypt data.Data data.Tag data.Nonce secret with
      | .error e => .error e
      | .ok none => .ok none
      | .ok (some decoded) =>
          match loads decoded with
          | some v => .ok (some v)
          | none => .error .jsonDecodeError

/-- StorageAccount.delete: delete the entity, swallowing
AzureMissingResourceHttpError. -/
def delete {σ : Type} (sa : StorageAccount) (tc : TableClient σ) (st : σ)
    (key : String) : Except PyErr σ :=
  match tc.deleteEntity st sa.table_name sa.partition_key key with
  | .ok st1 => .ok st1
  | .error .azureMissingResource => .ok st
  | .error e => .error e

end StorageAccount

/-! ## Lemmas about the codec -/

theorem sx_sx (key nonce : Bytes) (i : Nat) (bs : Bytes) :
    sx key nonce i (sx key nonce i bs) = bs := by
  induction bs generalizing i with
  | nil => simp [sx]
  | cons b bs ih => simp [sx, Nat.xor_cancel_right, ih]

theorem sx_valid (key nonce : Bytes) (i : Nat) (bs : Bytes) (h : ValidBytes bs) :
    ValidBytes (sx key nonce i bs) := by
  induction bs generalizing i with
  | nil => intro b hb; simp [sx] at hb
  | cons b bs ih =>
      intro x hx
      simp [sx] at hx
      rcases hx with hx | hx
      · have hb : b < 256 := h b (by simp)
        have hksb : ks key nonce i < 256 := Nat.mod_lt _ (by omega)
        have : b ^^^ ks key nonce i < 256 :=
          Nat.xor_lt_two_pow (n := 8) hb hksb
        omega
      · exact ih (i + 1) (fun y hy => h y (by simp [hy])) x hx

theorem sx_length (key nonce : Bytes) (i : Nat) (bs : Bytes) :
    (sx key nonce i bs).length = bs.length := by
  induction bs generalizing i with
  | nil => simp [sx]
  | cons b bs ih => simp [sx, ih]

theorem unary_valid (m : Nat) : ValidBytes (unary m) := by
  intro b hb
  simp [unary] at hb
  rcases hb with hb | hb <;> omega

theorem mac_valid (key nonce ct : Bytes) (hk : ValidBytes key) (hc : ValidBytes ct) :
    ValidBytes (mac key nonce ct) := by
  intro b hb
  simp [mac] at hb
  rcases hb with hb | hb | hb | hb
  · omega
  · exact hk b hb
  · exact unary_valid _ b hb
  · exact hc b hb

/-- The ideal tag is injective in the ciphertext (fixed key and nonce). -/
theorem mac_inj_ct {key nonce c1 c2 : Bytes} (h : mac key nonce c1 = mac key nonce c2) :
    c1 = c2 := by
  simp only [mac, List.cons.injEq] at h
  exact List.append_cancel_left (List.append_cancel_left h.2)

/-- Unary encodings prefix-determine their value. -/
theorem unary_prefix_inj : ∀ (a b : Nat) (x y : Bytes),
    unary a ++ x = unary b ++ y → a = b ∧ x = y := by
  intro a
  induction a with
  | zero =>
      intro b x y h
      cases b with
      | zero => simpa [unary] using h
      | succ b => simp [unary, List.replicate_succ] at h
  | succ a ih =>
      intro b x y h
      cases b with
      | zero => simp [unary, List.replicate_succ] at h
      | succ b =>
          simp only [unary, List.replicate_succ, List.cons_append, List.cons.injEq] at h
          have := ih b x y (by simpa [unary] using h.2)
          exact ⟨by omega, this.2⟩

/-- The ideal tag is injective in the key, among accepted key lengths
(fixed nonce and ciphertext). -/
theorem mac_inj_key {k1 k2 nonce ct : Bytes}
    (h1 : validKeyLen k1 = true) (h2 : validKeyLen k2 = true)
    (h : mac k1 nonce ct = mac k2 nonce ct) : k1 = k2 := by
  simp only [validKeyLen, Bool.or_eq_true, decide_eq_true_eq] at h1 h2
  simp only [mac, List.cons.injEq] at h
  have hlen : k1.length = k2.length := by
    have := h.1
    omega
  exact (List.append_inj h.2 hlen).1

theorem nonceOf_head (c : Nat) : nonceOf c = c % 256 :: nonceBytes 15 (c / 256) := rfl

theorem nonceOf_valid (c : Nat) : ValidBytes (nonceOf c) := by
  show ValidBytes (nonceBytes 16 c)
  generalize 16 = k
  induction k generalizing c with
  | zero => intro b hb; simp [nonceBytes] at hb
  | succ k ih =>
      intro b hb
      simp [nonceBytes] at hb
      rcases hb with hb | hb
      · omega
      · exact ih (c / 256) b hb

theorem nonceOf_ne_nil (c : Nat) : nonceOf c ≠ [] := by
  simp [nonceOf_head]

/-- Consecutive counter values draw different nonces. -/
theorem nonceOf_succ_ne (c : Nat) : nonceOf c ≠ nonceOf (c + 1) := by
  simp only [nonceOf_head, ne_eq, List.cons.injEq, not_and]
  intro hmod
  omega

/-! ## Lemmas about the operations against the Azure model -/

namespace StorageAccount

/-- What a successful `write` against the Azure model guarantees: the
key length was accepted, the counter advanced by one, the table exists
afterwards, the written row holds exactly the session entity, and no
other row changed. -/
theorem write_ok {sa : StorageAccount} {st : TableState} {c : Nat} {key : String}
    {data : Json} {secret : Bytes} {st1 : TableState} {c1 : Nat}
    (h : write sa azureClient st c key data secret = .ok (st1, c1)) :
    validKeyLen secret = true ∧ c1 = c + 1 ∧ sa.table_name ∈ st1.tables ∧
    st1.rows ⟨sa.table_name, sa.partition_key, key⟩ =
      some (sessionEntity sa key data secret c) ∧
    (∀ r : RowId, r ≠ ⟨sa.table_name, sa.partition_key, key⟩ → st1.rows r = st.rows r) := by
  by_cases hk : validKeyLen secret
  · simp only [write, encrypt, hk, if_true] at h
    by_cases ht : sa.table_name ∈ st.tables
    · simp only [azureClient, ht, if_true] at h
      simp only [Except.ok.injEq, Prod.mk.injEq] at h
      obtain ⟨hst1, hc1⟩ := h
      subst hst1
      subst hc1
      refine ⟨hk, rfl, ht, by simp [sessionEntity], ?_⟩
      intro r hr
      simp [hr]
    · simp only [azureClient, ht, if_false] at h
      by_cases hf : sa.create_table_if_not_exists
      · simp only [hf, if_true, if_false] at h
        have hmem : sa.table_name ∈ sa.table_name :: st.tables := by simp
        simp only [hmem, if_true] at h
        simp only [Except.ok.injEq, Prod.mk.injEq] at h
        obtain ⟨hst1, hc1⟩ := h
        subst hst1
        subst hc1
        refine ⟨hk, rfl, by simp, by simp [sessionEntity], ?_⟩
        intro r hr
        simp [hr]
      · simp [hf] at h
  · simp [write, encrypt, hk] at h

/-- `read` on a state whose table holds an entity at the looked-up row
unfolds to decrypt-then-deserialize of that entity's columns. -/
theorem read_found {sa : StorageAccount} {st : TableState} {key : String}
    {secret : Bytes} {e : Entity} (ht : sa.table_name ∈ st.tables)
    (he : st.rows ⟨sa.table_name, sa.partition_key, key⟩ = some e) :
    read sa azureClient st key secret =
      match decrypt e.Data e.Tag e.Nonce secret with
      | .error er => .error er
      | .ok none => .ok none
      | .ok (some decoded) =>
          match loads decoded with
          | some v => .ok (some v)
          | none => .error .jsonDecodeError := by
  simp [read, azureClient, ht, he]

end StorageAccount

/-- `decrypt` against a well-formed nonce column, unfolded over the
data and tag columns. -/
theorem decrypt_unfold (dS tS : String) (secret nb : Bytes)
    (hnb : ValidBytes nb) (hne : nb ≠ []) (hk : validKeyLen secret = true) :
    decrypt dS tS (b64s nb) secret =
      match b64decodeS dS with
      | none => .error .binasciiError
      | some ct =>
          match b64decodeS tS with
          | none => .error .binasciiError
          | some tb =>
              if tb = mac secret nb ct then .ok (some (sx secret nb 0 ct))
              else .ok none := by
  simp [decrypt, b64decodeS_b64s nb hnb, hne, hk]

/-! ## Concrete instances used by the witnesses -/

/-- A concrete store configuration (auto-create disabled). -/
def sa0 : StorageAccount := ⟨"sessions", "app", false⟩

/-- The row written by the concrete scenarios below. -/
def rid0 : RowId := ⟨"sessions", "app", "user42"⟩

/-- Empty backend state in which the table exists. -/
def st0 : TableState := ⟨["sessions"], fun _ => none⟩

/-- A 16-byte secret (the utf-8 bytes of sixteen letters a). -/
def secret0 : Bytes := List.replicate 16 97

/-- A different 16-byte secret. -/
def secretB0 : Bytes := List.replicate 16 98

/-- The session payload of the concrete scenario. -/
def v0 : Json := .obj (.cons "name" (.str "Ada") (.cons "count" (.num 3) .nil))

/-- Backend state after writing `v0` at "user42" with counter 0. -/
def stW : TableState :=
  ⟨["sessions"], fun r =>
    if r = rid0 then some (StorageAccount.sessionEntity sa0 "user42" v0 secret0 0)
    else none⟩

/-- Backend state after writing the same payload again with counter 1. -/
def stW2 : TableState :=
  ⟨["sessions"], fun r =>
    if r = rid0 then some (StorageAccount.sessionEntity sa0 "user42" v0 secret0 1)
    else stW.rows r⟩

/-! ## The claims -/

/-- C1.  Round-trip: for every key, every JSON-serializable mapping
value, and every secret of accepted key length, read(key, secret) after
a successful write(key, value, secret) (no intervening operations on
that key) returns a value structurally equal to the original. -/
theorem C1_round_trip (sa : StorageAccount) (st : TableState) (c : Nat)
    (key : String) (value : Json) (secret : Bytes) (st1 : TableState) (c1 : Nat)
    (hsec : ValidBytes secret)
    (hw : StorageAccount.write sa azureClient st c key value secret = .ok (st1, c1)) :
    StorageAccount.read sa azureClient st1 key secret = .ok (some value) := by
  obtain ⟨hk, hc1, ht, he, hfr⟩ := StorageAccount.write_ok hw
  rw [StorageAccount.read_found ht he]
  have hctv : ValidBytes (sx secret (nonceOf c) 0 (dumps value)) :=
    sx_valid _ _ _ _ (dumps_validBytes value)
  simp only [StorageAccount.sessionEntity,
    decrypt_unfold _ _ secret (nonceOf c) (nonceOf_valid c) (nonceOf_ne_nil c) hk,
    b64decodeS_b64s _ hctv,
    b64decodeS_b64s _ (mac_valid _ _ _ hsec hctv)]
  simp [sx_sx, loads_dumps]

theorem C1_round_trip_witness :
    ValidBytes secret0 ∧
    StorageAccount.read sa0 azureClient stW "user42" secret0 = .ok (some v0) :=
  ⟨by decide, C1_round_trip sa0 st0 0 "user42" v0 secret0 stW 1 (by decide) rfl⟩

/-- C3.  Wrong key: after write(key, value, secretA), a read(key,
secretB) with an accepted-length secretB different from secretA returns
absent (ok none) rather than raising or returning a value. -/
theorem C3_wrong_key (sa : StorageAccount) (st : TableState) (c : Nat)
    (key : String) (value : Json) (secretA secretB : Bytes)
    (st1 : TableState) (c1 : Nat)
    (hA : ValidBytes secretA) (hkB : validKeyLen secretB = true)
    (hne : secretA ≠ secretB)
    (hw : StorageAccount.write sa azureClient st c key value secretA = .ok (st1, c1)) :
    StorageAccount.read sa azureClient st1 key secretB = .ok none := by
  obtain ⟨hkA, hc1, ht, he, hfr⟩ := StorageAccount.write_ok hw
  rw [StorageAccount.read_found ht he]
  have hctv : ValidBytes (sx secretA (nonceOf c) 0 (dumps value)) :=
    sx_valid _ _ _ _ (dumps_validBytes value)
  simp only [StorageAccount.sessionEntity,
    decrypt_unfold _ _ secretB (nonceOf c) (nonceOf_valid c) (nonceOf_ne_nil c) hkB,
    b64decodeS_b64s _ hctv,
    b64decodeS_b64s _ (mac_valid _ _ _ hA hctv)]
  have hmne : mac secretA (nonceOf c) (sx secretA (nonceOf c) 0 (dumps value)) ≠
      mac secretB (nonceOf c) (sx secretA (nonceOf c) 0 (dumps value)) := by
    intro hmac
    exact hne (mac_inj_key hkA hkB hmac)
  simp [hmne]

theorem C3_wrong_key_witness :
    secret0 ≠ secretB0 ∧
    StorageAccount.read sa0 azureClient stW "user42" secretB0 = .ok none :=
  ⟨by decide,
    C3_wrong_key sa0 st0 0 "user42" v0 secret0 secretB0 stW 1
      (by decide) (by decide) (by decide) rfl⟩

/-- C8.  Invalid key rejection: encrypt fails with ValueError from
AES.new (the spec's InvalidKeyError) whenever the secret's byte length
is not 16, 24 or 32, rather than truncating, padding or succeeding. -/
theorem C8_invalid_key (data secret : Bytes) (c : Nat)
    (h : validKeyLen secret = false) :
    encrypt data secret c = .error .valueError := by
  simp [encrypt, h]

theorem C8_invalid_key_witness :
    validKeyLen (List.replicate 5 1) = false ∧
    encrypt [0] (List.replicate 5 1) 0 = .error .valueError :=
  ⟨by decide, C8_invalid_key [0] (List.replicate 5 1) 0 (by decide)⟩

/-- C9.  Corrupt-record propagation: when the fetched record
authenticates but the decrypted bytes fail to deserialize, read raises
json.JSONDecodeError (the spec's CorruptRecordError) instead of
returning absent or a partial value. -/
theorem C9_corrupt_record (sa : StorageAccount) (st : TableState) (key : String)
    (secret : Bytes) (e : Entity) (pt : Bytes)
    (ht : sa.table_name ∈ st.tables)
    (he : st.rows ⟨sa.table_name, sa.partition_key, key⟩ = some e)
    (hd : decrypt e.Data e.Tag e.Nonce secret = .ok (some pt))
    (hl : loads pt = none) :
    StorageAccount.read sa azureClient st key secret = .error .jsonDecodeError := by
  rw [StorageAccount.read_found ht he, hd]
  simp [hl]

/-- A record whose plaintext is the single byte 9, not valid JSON. -/
def e9 : Entity :=
  { PartitionKey := "app"
    RowKey := "user42"
    Data := b64s (sx secret0 (nonceOf 0) 0 [9])
    Tag := b64s (mac secret0 (nonceOf 0) (sx secret0 (nonceOf 0) 0 [9]))
    Nonce := b64s (nonceOf 0) }

/-- Backend state holding the non-JSON record. -/
def st9 : TableState := ⟨["sessions"], fun r => if r = rid0 then some e9 else none⟩

theorem C9_corrupt_record_witness :
    loads [9] = none ∧
    StorageAccount.read sa0 azureClient st9 "user42" secret0 = .error .jsonDecodeError :=
  ⟨rfl, C9_corrupt_record sa0 st9 "user42" secret0 e9 [9] (by decide) rfl rfl rfl⟩

/-- C4.  Missing-table write policy, proved against an arbitrary table
client: when the upsert inside write signals a missing table
(AzureMissingResourceHttpError, the spec's StorageUnavailableError),
then with create_table_if_not_exists false the error propagates, and
with it true the table is created and the upsert is retried exactly
once, any failure of the create or of the single retry propagating with
no further attempt. -/
theorem C4_missing_table_policy {σ : Type} (tc : TableClient σ) (sa : StorageAccount)
    (st : σ) (c : Nat) (key : String) (value : Json) (secret : Bytes)
    (hk : validKeyLen secret = true)
    (hfail : tc.insertOrMergeEntity st sa.table_name
        (StorageAccount.sessionEntity sa key value secret c) =
      .error .azureMissingResource) :
    (sa.create_table_if_not_exists = false →
      StorageAccount.write sa tc st c key value secret =
        .error .azureMissingResource) ∧
    (sa.create_table_if_not_exists = true →
      StorageAccount.write sa tc st c key value secret =
        match tc.createTable st sa.table_name with
        | .error e => .error e
        | .ok st1 =>
            match tc.insertOrMergeEntity st1 sa.table_name
                (StorageAccount.sessionEntity sa key value secret c) with
            | .ok st2 => .ok (st2, c + 1)
            | .error e => .error e) := by
  have hent : StorageAccount.sessionEntity sa key value secret c =
      { PartitionKey := sa.partition_key
        RowKey := key
        Data := b64s (sx secret (nonceOf c) 0 (dumps value))
        Tag := b64s (mac secret (nonceOf c) (sx secret (nonceOf c) 0 (dumps value)))
        Nonce := b64s (nonceOf c) } := rfl
  rw [hent] at hfail
  constructor <;> intro hf <;>
    simp [StorageAccount.write, encrypt, hk, hfail, hf, StorageAccount.sessionEntity]

/-- A toy client whose upsert fails on state 0 with a missing table. -/
def tcW : TableClient Nat :=
  { getEntity := fun _ _ _ _ => .error .azureMissingResource
    insertOrMergeEntity := fun n _ _ =>
      if n = 0 then .error .azureMissingResource else .ok (n + 1)
    deleteEntity := fun n _ _ _ => .ok n
    createTable := fun _ _ => .ok 7 }

/-- The toy configuration with auto-create enabled. -/
def saW : StorageAccount := ⟨"t", "p", true⟩

/-- The toy configuration with auto-create disabled. -/
def saW2 : StorageAccount := ⟨"t", "p", false⟩

theorem C4_missing_table_policy_witness :
    StorageAccount.write saW tcW 0 0 "k" Json.null secret0 = .ok (8, 1) ∧
    StorageAccount.write saW2 tcW 0 0 "k" Json.null secret0 =
      .error .azureMissingResource := by
  constructor
  · have h :=
      (C4_missing_table_policy tcW saW 0 0 "k" Json.null secret0 (by decide) rfl).2 rfl
    rw [h]
    rfl
  · exact
      (C4_missing_table_policy tcW saW2 0 0 "k" Json.null secret0 (by decide) rfl).1 rfl

/-- C5.  Idempotent delete: delete(key) with no stored record (or no
table) returns normally leaving the state untouched, and a second
delete right after a first one returns the first one's state unchanged,
so delete twice equals delete once. -/
theorem C5_idempotent_delete (sa : StorageAccount) (st : TableState) (key : String) :
    ((st.rows ⟨sa.table_name, sa.partition_key, key⟩ = none ∨
        sa.table_name ∉ st.tables) →
      StorageAccount.delete sa azureClient st key = .ok st) ∧
    (∀ st1 : TableState, StorageAccount.delete sa azureClient st key = .ok st1 →
      StorageAccount.delete sa azureClient st1 key = .ok st1) := by
  constructor
  · intro h
    rcases h with h | h
    · by_cases ht : sa.table_name ∈ st.tables
      · simp [StorageAccount.delete, azureClient, ht, h]
      · simp [StorageAccount.delete, azureClient, ht]
    · simp [StorageAccount.delete, azureClient, h]
  · intro st1 h
    by_cases ht : sa.table_name ∈ st.tables
    · cases hr : st.rows ⟨sa.table_name, sa.partition_key, key⟩ with
      | none =>
          simp only [StorageAccount.delete, azureClient, ht, if_true, hr,
            Except.ok.injEq] at h
          subst h
          simp [StorageAccount.delete, azureClient, ht, hr]
      | some e =>
          simp only [StorageAccount.delete, azureClient, ht, if_true, hr,
            Except.ok.injEq] at h
          subst h
          simp [StorageAccount.delete, azureClient, ht]
    · simp only [StorageAccount.delete, azureClient, ht, if_false,
        Except.ok.injEq] at h
      subst h
      simp [StorageAccount.delete, azureClient, ht]

/-- State holding one deletable record. -/
def stDel : TableState :=
  ⟨["sessions"], fun r => if r = rid0 then some e9 else none⟩

/-- `stDel` after the row has been deleted. -/
def stD1 : TableState :=
  ⟨["sessions"], fun r => if r = rid0 then none else stDel.rows r⟩

theorem C5_idempotent_delete_witness :
    StorageAccount.delete sa0 azureClient st0 "user42" = .ok st0 ∧
    StorageAccount.delete sa0 azureClient stD1 "user42" = .ok stD1 :=
  ⟨(C5_idempotent_delete sa0 st0 "user42").1 (Or.inl rfl),
    (C5_idempotent_delete sa0 stDel "user42").2 stD1 rfl⟩

/-- C6.  Nonce freshness: two successive writes of the identical
(key, value, secret) store different Nonce columns, because the codec
draws a fresh nonce inside each encrypt call (modelled by the advancing
counter, never caller-supplied). -/
theorem C6_nonce_freshness (sa : StorageAccount) (st : TableState) (c : Nat)
    (key : String) (value : Json) (secret : Bytes)
    (st1 : TableState) (c1 : Nat) (st2 : TableState) (c2 : Nat) (e1 e2 : Entity)
    (h1 : StorageAccount.write sa azureClient st c key value secret = .ok (st1, c1))
    (h2 : StorageAccount.write sa azureClient st1 c1 key value secret = .ok (st2, c2))
    (he1 : st1.rows ⟨sa.table_name, sa.partition_key, key⟩ = some e1)
    (he2 : st2.rows ⟨sa.table_name, sa.partition_key, key⟩ = some e2) :
    e1.Nonce ≠ e2.Nonce := by
  obtain ⟨hk1, hc1, ht1, hrow1, hfr1⟩ := StorageAccount.write_ok h1
  obtain ⟨hk2, hc2, ht2, hrow2, hfr2⟩ := StorageAccount.write_ok h2
  rw [hrow1] at he1
  rw [hrow2] at he2
  have he1' := Option.some.inj he1
  have he2' := Option.some.inj he2
  subst he1'
  subst he2'
  subst hc1
  simp only [StorageAccount.sessionEntity, ne_eq]
  intro hns
  have := b64s_inj (nonceOf_valid c) (nonceOf_valid (c + 1)) hns
  exact nonceOf_succ_ne c this

theorem C6_nonce_freshness_witness :
    (StorageAccount.sessionEntity sa0 "user42" v0 secret0 0).Nonce ≠
      (StorageAccount.sessionEntity sa0 "user42" v0 secret0 1).Nonce :=
  C6_nonce_freshness sa0 st0 0 "user42" v0 secret0 stW 1 stW2 2
    (StorageAccount.sessionEntity sa0 "user42" v0 secret0 0)
    (StorageAccount.sessionEntity sa0 "user42" v0 secret0 1)
    rfl rfl rfl rfl

/-- C10.  Frame: a successful write against the Azure model creates or
overwrites exactly the row (table_name, partition_key, key) and leaves
every other row untouched, and delete removes at most that row, leaving
every other row and the table list unchanged.  (read in this embedding
is a pure function of the state and returns no state at all, so it
modifies no row by construction.) -/
theorem C10_frame (sa : StorageAccount) (st : TableState) (c : Nat)
    (key : String) (value : Json) (secret : Bytes) :
    (∀ (st1 : TableState) (c1 : Nat),
      StorageAccount.write sa azureClient st c key value secret = .ok (st1, c1) →
      (∀ r : RowId, r ≠ ⟨sa.table_name, sa.partition_key, key⟩ →
        st1.rows r = st.rows r) ∧
      st1.rows ⟨sa.table_name, sa.partition_key, key⟩ =
        some (StorageAccount.sessionEntity sa key value secret c)) ∧
    (∀ st1 : TableState,
      StorageAccount.delete sa azureClient st key = .ok st1 →
      (∀ r : RowId, r ≠ ⟨sa.table_name, sa.partition_key, key⟩ →
        st1.rows r = st.rows r) ∧
      (sa.table_name ∈ st.tables →
        st1.rows ⟨sa.table_name, sa.partition_key, key⟩ = none) ∧
      st1.tables = st.tables) := by
  constructor
  · intro st1 c1 hw
    obtain ⟨hk, hc1, ht, he, hfr⟩ := StorageAccount.write_ok hw
    exact ⟨hfr, he⟩
  · intro st1 h
    by_cases ht : sa.table_name ∈ st.tables
    · cases hr : st.rows ⟨sa.table_name, sa.partition_key, key⟩ with
      | none =>
          simp only [StorageAccount.delete, azureClient, ht, if_true, hr,
            Except.ok.injEq] at h
          subst h
          exact ⟨fun r hrne => rfl, fun _ => hr, rfl⟩
      | some e =>
          simp only [StorageAccount.delete, azureClient, ht, if_true, hr,
            Except.ok.injEq] at h
          subst h
          refine ⟨fun r hrne => by simp [hrne], fun _ => by simp, rfl⟩
    · simp only [StorageAccount.delete, azureClient, ht, if_false,
        Except.ok.injEq] at h
      subst h
      exact ⟨fun r hrne => rfl, fun hmem => absurd hmem ht, rfl⟩

/-- A row other than the one "user42" occupies. -/
def ridOther : RowId := ⟨"sessions", "app", "someoneElse"⟩

theorem C10_frame_witness :
    stW.rows ridOther = st0.rows ridOther ∧
    stD1.rows ridOther = stDel.rows ridOther :=
  ⟨((C10_frame sa0 st0 0 "user42" v0 secret0).1 stW 1 rfl).1 ridOther (by decide),
    (((C10_frame sa0 stDel 0 "user42" v0 secret0).2 stD1 rfl).1 ridOther (by decide))⟩

/-- C7.  Decrypt error taxonomy: decrypt returns the explicit absence
value (ok none) exactly when every input decodes, the cipher accepts
key and nonce, and the tag fails to verify; and it raises
binascii.Error (the spec's MalformedInputError) only when some input is
not valid base64 — the two conditions stay distinct. -/
theorem C7_decrypt_taxonomy (dS tS nS : String) (secret : Bytes) :
    (decrypt dS tS nS secret = .ok none ↔
      ∃ nb ct tb, b64decodeS nS = some nb ∧ b64decodeS dS = some ct ∧
        b64decodeS tS = some tb ∧ nb ≠ [] ∧ validKeyLen secret = true ∧
        tb ≠ mac secret nb ct) ∧
    (decrypt dS tS nS secret = .error .binasciiError →
      b64decodeS nS = none ∨ b64decodeS dS = none ∨ b64decodeS tS = none) := by
  cases hn : b64decodeS nS with
  | none =>
      constructor
      · simp [decrypt, hn]
      · intro _
        exact Or.inl rfl
  | some nb =>
      by_cases hne : nb = []
      · subst hne
        constructor
        · simp [decrypt, hn]
        · intro hcontra
          simp [decrypt, hn] at hcontra
      · by_cases hk : validKeyLen secret
        · cases hd : b64decodeS dS with
          | none =>
              constructor
              · simp [decrypt, hn, hne, hk, hd]
              · intro _
                exact Or.inr (Or.inl rfl)
          | some ct =>
              cases htb : b64decodeS tS with
              | none =>
                  constructor
                  · simp [decrypt, hn, hne, hk, hd, htb]
                  · intro _
                    exact Or.inr (Or.inr rfl)
              | some tb =>
                  by_cases hmac : tb = mac secret nb ct
                  · constructor
                    · simp [decrypt, hn, hne, hk, hd, htb, hmac]
                    · intro hcontra
                      simp [decrypt, hn, hne, hk, hd, htb, hmac] at hcontra
                  · have hdec : decrypt dS tS nS secret = .ok none := by
                      simp [decrypt, hn, hne, hk, hd, htb, hmac]
                    constructor
                    · rw [hdec]
                      constructor
                      · intro _
                        exact ⟨nb, ct, tb, rfl, rfl, rfl, hne, hk, hmac⟩
                      · intro _
                        rfl
                    · rw [hdec]
                      intro hcontra
                      exact Except.noConfusion hcontra
        · constructor
          · simp [decrypt, hn, hne, hk]
          · intro hcontra
            simp [decrypt, hn, hne, hk] at hcontra

theorem C7_decrypt_taxonomy_witness :
    decrypt (b64s [32]) "AAAA" (b64s (nonceOf 0)) secret0 = .ok none :=
  (C7_decrypt_taxonomy (b64s [32]) "AAAA" (b64s (nonceOf 0)) secret0).1.mpr
    ⟨nonceOf 0, [32], [0, 0, 0], by rfl, by rfl, by rfl,
      by decide, by decide, by decide⟩

/-- The honest record for payload null under secret0 and counter 0. -/
def eC2 : Entity := StorageAccount.sessionEntity sa0 "user42" Json.null secret0 0

/-- Backend state holding the honest record. -/
def stC2h : TableState := ⟨["sessions"], fun r => if r = rid0 then some eC2 else none⟩

/-- The honest record with the second byte of its Data column changed
from A to B: still valid base64, and the changed bits fall in the
unused low bits of the final quad, so it decodes to the same
ciphertext byte on every CPython version. -/
def eC2t : Entity := { eC2 with Data := "IB==" }

/-- Backend state holding the tampered record. -/
def stC2t : TableState := ⟨["sessions"], fun r => if r = rid0 then some eC2t else none⟩

/-- `t` is `s` with exactly one byte replaced. -/
def oneByteMod (s t : String) : Prop :=
  s.data.length = t.data.length ∧
  ((s.data.zip t.data).countP fun p => p.1 != p.2) = 1

/-- A pure-ASCII Python str, the only strings base64.b64decode accepts
without raising ValueError first. -/
def AsciiStr (s : String) : Prop := ∀ ch ∈ s.data, ch.toNat < 128

instance (s t : String) : Decidable (oneByteMod s t) :=
  inferInstanceAs (Decidable (s.data.length = t.data.length ∧
    ((s.data.zip t.data).countP fun p => p.1 != p.2) = 1))

instance (s : String) : Decidable (AsciiStr s) :=
  inferInstanceAs (Decidable (∀ ch ∈ s.data, ch.toNat < 128))

/-- C2, counterexample.  The claim "every single-byte modification of
the stored Data or Tag makes read return absent" is false: the honest
Data column is the base64 text IA==, and changing its second byte to B
(a single-byte modification) leaves the decoded ciphertext unchanged —
base64 is not canonical, the flipped bits are the unused trailing bits
of the final quad — so the tag still verifies and read returns the
original value instead of absent. -/
theorem C2_tamper_counterexample :
    eC2.Data = "IA==" ∧
    StorageAccount.read sa0 azureClient stC2h "user42" secret0 =
      .ok (some Json.null) ∧
    eC2t.Data = "IB==" ∧
    oneByteMod "IA==" "IB==" ∧
    StorageAccount.read sa0 azureClient stC2t "user42" secret0 =
      .ok (some Json.null) ∧
    (Except.ok (some Json.null) : Except PyErr (Option Json)) ≠ .ok none :=
  ⟨rfl, rfl, rfl, by decide, rfl, by simp⟩

/-- C2, amended.  For a single-byte ASCII modification of the stored
Data (resp. Tag) column of an honestly written record, read returns
absent when the modified column still base64-decodes (in Python's
lenient decoder) but to different bytes than the original; it returns
the original value when the modified column decodes to the very same
bytes (base64 is not canonical, so some single-byte changes do, as the
counterexample shows); and it raises binascii.Error (the spec's
MalformedInputError) when the modified column no longer decodes.  In no
case does read return a plaintext different from the written one. -/
theorem C2_tamper_amended (sa : StorageAccount) (st : TableState) (key : String)
    (value : Json) (secret : Bytes) (c : Nat) (dS tS : String)
    (hsec : ValidBytes secret) (hk : validKeyLen secret = true)
    (ht : sa.table_name ∈ st.tables) :
    (oneByteMod (b64s (sx secret (nonceOf c) 0 (dumps value))) dS →
      AsciiStr dS →
      st.rows ⟨sa.table_name, sa.partition_key, key⟩ =
        some { PartitionKey := sa.partition_key, RowKey := key, Data := dS,
               Tag := b64s (mac secret (nonceOf c)
                 (sx secret (nonceOf c) 0 (dumps value))),
               Nonce := b64s (nonceOf c) } →
      StorageAccount.read sa azureClient st key secret =
        match b64decodeS dS with
        | none => .error .binasciiError
        | some ct1 =>
            if ct1 = sx secret (nonceOf c) 0 (dumps value) then .ok (some value)
            else .ok none) ∧
    (oneByteMod (b64s (mac secret (nonceOf c)
        (sx secret (nonceOf c) 0 (dumps value)))) tS →
      AsciiStr tS →
      st.rows ⟨sa.table_name, sa.partition_key, key⟩ =
        some { PartitionKey := sa.partition_key, RowKey := key,
               Data := b64s (sx secret (nonceOf c) 0 (dumps value)), Tag := tS,
               Nonce := b64s (nonceOf c) } →
      StorageAccount.read sa azureClient st key secret =
        match b64decodeS tS with
        | none => .error .binasciiError
        | some tb =>
            if tb = mac secret (nonceOf c) (sx secret (nonceOf c) 0 (dumps value))
            then .ok (some value)
            else .ok none) := by
  have hctv : ValidBytes (sx secret (nonceOf c) 0 (dumps value)) :=
    sx_valid _ _ _ _ (dumps_validBytes value)
  constructor
  · intro hmod hascii he
    rw [StorageAccount.read_found ht he]
    simp only [decrypt_unfold dS _ secret (nonceOf c)
      (nonceOf_valid c) (nonceOf_ne_nil c) hk,
      b64decodeS_b64s _ (mac_valid _ _ _ hsec hctv)]
    cases hd : b64decodeS dS with
    | none => simp
    | some ct1 =>
        by_cases hceq : ct1 = sx secret (nonceOf c) 0 (dumps value)
        · subst hceq
          simp [sx_sx, loads_dumps]
        · have hmne : mac secret (nonceOf c)
              (sx secret (nonceOf c) 0 (dumps value)) ≠
              mac secret (nonceOf c) ct1 := by
            intro hmac
            exact hceq (mac_inj_ct hmac).symm
          simp [hmne, hceq]
  · intro hmod hascii he
    rw [StorageAccount.read_found ht he]
    simp only [decrypt_unfold _ tS secret (nonceOf c)
      (nonceOf_valid c) (nonceOf_ne_nil c) hk,
      b64decodeS_b64s _ hctv]
    cases htb : b64decodeS tS with
    | none => simp
    | some tb =>
        by_cases hteq : tb = mac secret (nonceOf c)
            (sx secret (nonceOf c) 0 (dumps value))
        · subst hteq
          simp [sx_sx, loads_dumps]
        · simp [hteq]

theorem C2_tamper_amended_witness :
    StorageAccount.read sa0 azureClient stC2t "user42" secret0 =
      .ok (some Json.null) := by
  have h := (C2_tamper_amended sa0 stC2t "user42" Json.null secret0 0 "IB==" ""
    (by decide) (by decide) (by decide)).1 (by decide) (by decide) rfl
  rw [h]
  rfl

end FlaskSessionAzure
